import Mathlib

/-!
Verification of the documentation search engine in `src/search-docs.ts`
(the scix-mcp repository).

The engine is shallowly embedded: JavaScript strings become `List Char`,
JavaScript numbers used as limits become the `JSNum` type (finite rational,
NaN, or an infinity), MiniSearch scores become rationals, and the external
MiniSearch library call is abstracted as a raw result list passed as a
parameter, constrained by hypotheses (results are drawn from the indexed
documents and are sorted by descending score, as MiniSearch guarantees).
Case folding (`toLowerCase` / `toUpperCase`) is modelled ASCII-only.
-/

/-- A JavaScript string, modelled as its list of characters. -/
abbrev JStr := List Char

/-- The characters matched by the JavaScript regex class `\s`
(whitespace), as used by `trim`, `split(/\s+/)` and `replace(/\s+/g, ...)`. -/
def isWsChar (c : Char) : Bool :=
  c == ' ' || c == '\t' || c == '\n' || c == '\r' ||
  c == Char.ofNat 11 || c == Char.ofNat 12 || c == Char.ofNat 160 ||
  c == Char.ofNat 0x1680 ||
  (decide (0x2000 ≤ c.toNat) && decide (c.toNat ≤ 0x200a)) ||
  c == Char.ofNat 0x2028 || c == Char.ofNat 0x2029 ||
  c == Char.ofNat 0x202f || c == Char.ofNat 0x205f ||
  c == Char.ofNat 0x3000 || c == Char.ofNat 0xfeff

/-- JavaScript `String.prototype.trim`. -/
def jsTrim (s : JStr) : JStr :=
  ((s.dropWhile isWsChar).reverse.dropWhile isWsChar).reverse

/-- JavaScript `String.prototype.toLowerCase`, modelled ASCII-only. -/
def jsToLower (s : JStr) : JStr := s.map Char.toLower

/-- JavaScript `'...'`, the ellipsis marker used by the snippet logic. -/
def dots : JStr := ['.', '.', '.']

/-- Dropping a prefix cannot lengthen a list (used for termination). -/
theorem dropWhile_len_le (p : α → Bool) (l : List α) :
    (l.dropWhile p).length ≤ l.length := by
  induction l with
  | nil => simp [List.dropWhile]
  | cons c rest ih =>
    rw [List.dropWhile]
    split
    · exact Nat.le_succ_of_le ih
    · simp

/-- Model of `s.replace(/\s+/g, ' ')`: every maximal whitespace run
becomes a single space. Written with two-character lookahead (drop the
first of two adjacent whitespace characters) so the recursion is
structural; this computes the same string as run-by-run replacement. -/
def collapseWs : JStr → JStr
  | [] => []
  | [c] => if isWsChar c then [' '] else [c]
  | c1 :: c2 :: rest =>
    if isWsChar c1 && isWsChar c2 then collapseWs (c2 :: rest)
    else (if isWsChar c1 then ' ' else c1) :: collapseWs (c2 :: rest)

/-- Model of `s.replace(/[-_]+/g, ' ')` (used by `slugToTitle`): every
maximal run of dashes and underscores becomes a single space. Same
two-character-lookahead shape as `collapseWs`. -/
def dashesToSpaces : JStr → JStr
  | [] => []
  | [c] => if c == '-' || c == '_' then [' '] else [c]
  | c1 :: c2 :: rest =>
    if (c1 == '-' || c1 == '_') && (c2 == '-' || c2 == '_') then
      dashesToSpaces (c2 :: rest)
    else (if c1 == '-' || c1 == '_' then ' ' else c1) :: dashesToSpaces (c2 :: rest)

/-- Model of `s.split(/\s+/).filter(Boolean)`: the maximal non-whitespace
runs of `s`, in order. -/
def splitWs : JStr → List JStr
  | [] => []
  | c :: rest =>
    if isWsChar c then splitWs rest
    else ((c :: rest).takeWhile (fun x => ¬ isWsChar x)) ::
      splitWs (rest.dropWhile (fun x => ¬ isWsChar x))
termination_by l => l.length
decreasing_by
  · simp
  · simpa using Nat.lt_succ_of_le (dropWhile_len_le _ _)

/-- JavaScript `haystack.indexOf(needle)`, as an `Option Nat` instead of a
`-1` sentinel: the least index at which `needle` occurs in `haystack`.
(Like in JavaScript, the empty needle occurs at index 0.) -/
def jsIndexOf (hay needle : JStr) : Option Nat :=
  (List.range (hay.length + 1)).find? (fun i => needle.isPrefixOf (hay.drop i))

/-- A JavaScript number as used for `limit` arguments: a finite value
(modelled as a rational), `NaN`, or one of the two infinities. -/
inductive JSNum where
  | num : ℚ → JSNum
  | nan : JSNum
  | posInf : JSNum
  | negInf : JSNum
deriving DecidableEq

/-- JavaScript `Math.floor`. -/
def jsFloor : JSNum → JSNum
  | .num q => .num ⌊q⌋
  | x => x

/-- JavaScript truthiness of a number (`0`, `-0` and `NaN` are falsy). -/
def jsTruthy : JSNum → Bool
  | .num q => decide (q ≠ 0)
  | .nan => false
  | _ => true

/-- JavaScript `x || 1` on numbers. -/
def jsOr1 (x : JSNum) : JSNum := if jsTruthy x then x else .num 1

/-- JavaScript `Math.max` (returns `NaN` if either argument is `NaN`). -/
def jsMax : JSNum → JSNum → JSNum
  | .nan, _ => .nan
  | _, .nan => .nan
  | .posInf, _ => .posInf
  | _, .posInf => .posInf
  | .negInf, b => b
  | a, .negInf => a
  | .num a, .num b => .num (max a b)

/-- Truncation toward zero, the `ToIntegerOrInfinity` step of `slice`. -/
def jsTrunc (q : ℚ) : Int := if q < 0 then -((-q).floor) else q.floor

/-- The effective end index of `arr.slice(0, n)` for an array of length
`len`, per the ECMAScript specification of `Array.prototype.slice`. -/
def jsSliceEndIndex (len : Nat) : JSNum → Nat
  | .posInf => len
  | .negInf => 0
  | .nan => 0
  | .num q =>
    let r := jsTrunc q
    if r < 0 then ((len : Int) + r).toNat else min r.toNat len

/-- JavaScript `arr.slice(0, n)`. -/
def jsSliceTo (n : JSNum) (l : List α) : List α := l.take (jsSliceEndIndex l.length n)

/-- A documentation chunk record (`DocChunk` in `search-docs.ts`). Raw
records parsed from JSON have arbitrary field values; the loader rewrites
`title`, `section`, `subsection`, `content` and `char_count`. A missing
optional string field is modelled as the empty string (the code defaults
missing fields to `''` via `?.` and `|| ''`). -/
structure DocChunk where
  id : JStr
  source_file : JStr
  source_url : JStr
  doc_type : JStr
  category : JStr
  title : JStr
  «section» : JStr
  subsection : JStr
  content : JStr
  char_count : Int
deriving DecidableEq

/-- A raw MiniSearch hit: the stored fields plus the relevance score.
MiniSearch itself is an external library; its output list is passed to the
embedded functions as a parameter. -/
structure MSResult where
  id : JStr
  title : JStr
  «section» : JStr
  subsection : JStr
  source_file : JStr
  source_url : JStr
  doc_type : JStr
  category : JStr
  content : JStr
  score : ℚ
deriving DecidableEq

/-- The `SearchResult` record returned by the public search functions. -/
structure SearchResult where
  id : JStr
  title : JStr
  «section» : JStr
  subsection : JStr
  source_file : JStr
  source_url : JStr
  doc_type : JStr
  category : JStr
  score : ℚ
  snippet : JStr
deriving DecidableEq

/-- The stored fields of a MiniSearch hit are verbatim copies of the
fields of some indexed document. -/
def storedFrom (r : MSResult) (d : DocChunk) : Prop :=
  r.id = d.id ∧ r.title = d.title ∧ r.«section» = d.«section» ∧
  r.subsection = d.subsection ∧ r.source_file = d.source_file ∧
  r.source_url = d.source_url ∧ r.doc_type = d.doc_type ∧
  r.category = d.category ∧ r.content = d.content

/-- `SNIPPET_MAX_LENGTH` from `search-docs.ts`. -/
def SNIPPET_MAX_LENGTH : Nat := 260

/-- Helper for `stripMarkdownLinks`: starting just after a `[`, try to
match the rest of the regex `\[([^\]]+)\]\([^)]+\)`; on success return the
link text (capture group 1) and the remainder of the string after the
closing parenthesis. -/
def parseMdLink (rest : JStr) : Option (JStr × JStr) :=
  let txt := rest.takeWhile (fun x => x ≠ ']')
  if txt.length = 0 then none
  else
    match rest.drop txt.length with
    | ']' :: '(' :: rest2 =>
      let url := rest2.takeWhile (fun x => x ≠ ')')
      if url.length = 0 then none
      else
        match rest2.drop url.length with
        | ')' :: rest3 => some (txt, rest3)
        | _ => none
    | _ => none

theorem takeWhile_len_le (p : α → Bool) (l : List α) :
    (l.takeWhile p).length ≤ l.length := by
  induction l with
  | nil => simp [List.takeWhile]
  | cons c rest ih =>
    rw [List.takeWhile]
    split
    · simpa using ih
    · simp

theorem parseMdLink_len {rest txt rest3 : JStr}
    (h : parseMdLink rest = some (txt, rest3)) : rest3.length < rest.length := by
  simp only [parseMdLink] at h
  split at h
  · exact absurd h (by simp)
  · split at h
    · rename_i rest2 hdrop
      split at h
      · exact absurd h (by simp)
      · split at h
        · rename_i rest3x hdrop2
          have h3 : rest3x = rest3 := by
            simpa using congrArg (fun o => o.map Prod.snd) h
          have e1 := congrArg List.length hdrop
          have e2 := congrArg List.length hdrop2
          have hle1 := takeWhile_len_le (fun x => decide (x ≠ ']')) rest
          have hle2 := takeWhile_len_le (fun x => decide (x ≠ ')')) rest2
          subst h3
          simp only [List.length_drop, List.length_cons] at e1 e2
          omega
        · exact absurd h (by simp)
    · exact absurd h (by simp)

/-- Recursion core of `stripMarkdownLinks`. The `fuel` argument makes the
recursion structural (a replaced link consumes more characters than fuel,
see `parseMdLink_len`), so the function evaluates by kernel reduction;
`fuel = l.length` never runs out, making the `0` fallback unreachable. -/
def stripMLGo : JStr → Nat → JStr
  | l, 0 => l
  | [], _ + 1 => []
  | c :: rest, fuel + 1 =>
    if c = '[' then
      match parseMdLink rest with
      | some (txt, rest3) => txt ++ stripMLGo rest3 fuel
      | none => c :: stripMLGo rest fuel
    else c :: stripMLGo rest fuel

/-- Model of `stripMarkdownLinks`: `text.replace(/\[([^\]]+)\]\([^)]+\)/g, '$1')`. -/
def stripMarkdownLinks (text : JStr) : JStr := stripMLGo text text.length

/-- Model of `normalizeContent`: strip markdown links, collapse whitespace
runs to single spaces, trim. -/
def normalizeContent (content : JStr) : JStr :=
  jsTrim (collapseWs (stripMarkdownLinks content))

/-- Try to match the heading regex `^(#{1,6})\s+(.+)$` (with the `m` flag)
at one line start: `l` is the remainder of the string from that line start.
Returns capture group 2 on success. The branch structure follows the
regex's backtracking: only the maximal hash run can match `#{1,6}`; `\s+`
is greedy and may span newlines; if nothing non-whitespace remains on the
final line reached, the engine gives characters back to `.+` one at a
time, succeeding at the last non-newline whitespace character provided at
least one whitespace character remains for `\s+`. -/
def headingAt (l : JStr) : Option JStr :=
  let hashes := l.takeWhile (fun c => c = '#')
  if hashes.length = 0 ∨ 6 < hashes.length then none
  else
    let rest := l.drop hashes.length
    let w := rest.takeWhile isWsChar
    if w.length = 0 then none
    else
      let afterWs := rest.drop w.length
      let lineRest := afterWs.takeWhile (fun c => c ≠ '\n')
      if lineRest.length ≠ 0 then some lineRest
      else
        let core := w.take (w.length - (w.reverse.takeWhile (fun c => c = '\n')).length)
        if 2 ≤ core.length then core.getLast?.map (fun c => [c]) else none

/-- Recursion core of the line-start scan: each step advances past the
next newline, which consumes at least one character (`dropWhile_len_le`),
so `fuel = l.length` never runs out and the recursion is structural. -/
def findHeadingGo : JStr → Nat → Option JStr
  | _, 0 => none
  | l, fuel + 1 =>
    match headingAt l with
    | some g => some g
    | none =>
      match l.dropWhile (fun c => c ≠ '\n') with
      | [] => none
      | _ :: tail => findHeadingGo tail fuel

/-- Scan successive line starts for the first match of the multiline
heading regex (`^` with the `m` flag only matches at line starts). -/
def findHeadingMatch (l : JStr) : Option JStr := findHeadingGo l (l.length + 1)

/-- Model of `extractFirstHeading`: `raw.match(/^(#{1,6})\s+(.+)$/m)`,
returning `''` on no match and `normalizeContent` of capture group 2
otherwise. -/
def extractFirstHeading (raw : JStr) : JStr :=
  match findHeadingMatch raw with
  | none => []
  | some g => normalizeContent g

/-- The JavaScript regex `\w` class (ASCII word characters). -/
def isWordChar (c : Char) : Bool :=
  (c ≥ 'a' && c ≤ 'z') || (c ≥ 'A' && c ≤ 'Z') || (c ≥ '0' && c ≤ '9') || c == '_'

/-- Model of `.replace(/\b\w/g, (c) => c.toUpperCase())`: uppercase every
word character that starts a word (its predecessor, if any, is not a word
character). `atBoundary` says whether the previous character was a
non-word character (true at the start of the string). -/
def titleCaseWords (atBoundary : Bool) : JStr → JStr
  | [] => []
  | c :: rest =>
    (if atBoundary && isWordChar c then c.toUpper else c) ::
      titleCaseWords (¬ isWordChar c) rest

/-- Model of `slugToTitle`. -/
def slugToTitle (slug : JStr) : JStr :=
  if slug = [] then []
  else titleCaseWords true (jsTrim (collapseWs (dashesToSpaces slug)))

/-- The apostrophe character class of the navigation-noise regex. In the
source file the class `['â€™]` contains a plain apostrophe and the three
bytes of a mis-decoded U+2019: the characters U+00E2, U+20AC, U+2122. -/
def aposChars : List Char := [Char.ofNat 39, Char.ofNat 0xe2, Char.ofNat 0x20ac, Char.ofNat 0x2122]

/-- Match the body of the navigation-noise regex
`what['â€™]?s?\s*[_\s-]*new` (case-insensitively) at the start of `l`.
Each quantified piece here is greedy; no backtracking is needed because no
character of `new` belongs to any of the optional classes. -/
def navMatchAt (l : JStr) : Bool :=
  if (jsToLower (l.take 4)) = ['w', 'h', 'a', 't'] then
    let r1 := l.drop 4
    let r2 := match r1 with
      | c :: t => if aposChars.contains c then t else r1
      | [] => r1
    let r3 := match r2 with
      | c :: t => if c.toLower = 's' then t else r2
      | [] => r2
    let r4 := r3.dropWhile isWsChar
    let r5 := r4.dropWhile (fun c => isWsChar c || c == '_' || c == '-')
    jsToLower (r5.take 3) = ['n', 'e', 'w']
  else false

/-- Model of `isNavText`: `/what['â€™]?s?\s*[_\s-]*new/i.test(text)` —
the pattern matches somewhere in the text. -/
def isNavText (text : JStr) : Bool :=
  text.tails.any navMatchAt

/-- Model of `deriveTitle`: the first non-empty candidate, in precedence
order, that is not navigation noise; the raw id as a final fallback. -/
def deriveTitle (doc : DocChunk) (heading : JStr) : JStr :=
  let candidates :=
    ([heading, jsTrim doc.subsection, jsTrim doc.«section», jsTrim doc.title,
      slugToTitle doc.source_file, doc.id]).filter (fun c => c ≠ [])
  match candidates.find? (fun c => ¬ isNavText c) with
  | some c => c
  | none => doc.id

/-- Model of `isWhatsNew`: whole-document navigation-noise check. -/
def isWhatsNew (doc : DocChunk) : Bool :=
  isNavText doc.source_file || isNavText doc.source_url || isNavText doc.id

/-- The per-record cleaning step of `initIndex` (the first `.map`): derive
the title, trim the section labels, normalize the content and recompute
`char_count`. -/
def cleanDoc (doc : DocChunk) : DocChunk :=
  let rawContent := doc.content
  let heading := extractFirstHeading rawContent
  let cleanContent := normalizeContent rawContent
  { doc with
    title := deriveTitle doc heading
    «section» := jsTrim doc.«section»
    subsection := jsTrim doc.subsection
    content := cleanContent
    char_count := (cleanContent.length : Int) }

/-- The record filter of `initIndex`: drop any record whose title is empty
or the `'404'` sentinel, whose content is empty, or which is a whole-
document navigation-noise match. -/
def keepDoc (doc : DocChunk) : Bool :=
  if doc.title = [] ∨ doc.content = [] ∨ doc.title = ['4', '0', '4'] ∨
      doc.content.length = 0 then false
  else ! isWhatsNew doc

/-- The document pipeline of `initIndex` (lines 127-156 of
`search-docs.ts`): clean every parsed record, then filter. (The trailing
`.map` that removes the transient `_heading` field is the identity here,
since the model never stores `_heading`.) -/
def cleanDocs (parsedDocs : List DocChunk) : List DocChunk :=
  (parsedDocs.map cleanDoc).filter keepDoc

/-- One iteration of the term loop in `makeSnippet`: keep the smallest
index found so far (`none` models the `-1` sentinel). -/
def stepIdx (lower : JStr) (idx : Option Nat) (term : JStr) : Option Nat :=
  match jsIndexOf lower (jsToLower term) with
  | none => idx
  | some i =>
    match idx with
    | none => some i
    | some j => if i < j then some i else some j

/-- Model of `makeSnippet(content, terms, maxLen)`. JavaScript
`Math.max(0, idx - Math.floor(maxLen / 2))` is truncated subtraction on
naturals; `content.slice(start, end)` is `drop start` then
`take (end - start)`. -/
def makeSnippet (content : JStr) (terms : List JStr) (maxLen : Nat) : JStr :=
  if content = [] then []
  else
    let lower := jsToLower content
    match terms.foldl (stepIdx lower) none with
    | none => content.take maxLen ++ (if maxLen < content.length then dots else [])
    | some idx =>
      let start := idx - maxLen / 2
      let stop := min content.length (start + maxLen)
      let snippet := (content.drop start).take (stop - start)
      (if 0 < start then dots else []) ++ snippet ++
        (if stop < content.length then dots else [])

/-- `MIN_SCORE_RATIO` from `search-docs.ts` (the constant `0.4`). -/
def MIN_SCORE_FRAC : ℚ := 0.4

/-- The final mapping of a raw MiniSearch hit to a `SearchResult` in
`searchDocs` and `searchByCategory`. The `|| ''` defaults of the source
are identities here, because every modelled field is a total string. -/
def mkSearchResult (r : MSResult) (terms : List JStr) : SearchResult :=
  { id := r.id
    title := r.title
    «section» := r.«section»
    subsection := r.subsection
    source_file := r.source_file
    source_url := r.source_url
    doc_type := r.doc_type
    category := r.category
    score := r.score
    snippet := makeSnippet r.content terms SNIPPET_MAX_LENGTH }

/-- The coerced limit of `searchDocs`:
`Number.isFinite(limit) ? Math.max(1, Math.floor(limit)) : 5`. -/
def coercedLimit : JSNum → Int
  | .num q => max 1 ⌊q⌋
  | _ => 5

/-- Model of `searchDocs(query, limit, options)`. `docs` is the cleaned
corpus held by the module, and `results` stands for the output of
`miniSearch.search(trimmedQuery, searchOptions)` — the external MiniSearch
call. Everything after that call is embedded faithfully: the limit
coercion, the `docs.length || limitValue` fallback, the relative-score
cutoff against `results[0]?.score ?? 0`, truncation, and the mapping to
`SearchResult` records. -/
def searchDocs (query : JStr) (limit : JSNum) (docs : List DocChunk)
    (results : List MSResult) : List SearchResult :=
  let trimmedQuery := jsTrim query
  if trimmedQuery = [] then []
  else
    let limitValue : Int := coercedLimit limit
    let maxResults : Int :=
      min limitValue (if docs.length = 0 then limitValue else (docs.length : Int))
    let terms := splitWs trimmedQuery
    let topScore : ℚ := match results with | [] => 0 | r :: _ => r.score
    let filteredResults :=
      if 0 < topScore then results.filter (fun r => topScore * MIN_SCORE_FRAC ≤ r.score)
      else results
    (jsSliceTo (.num (maxResults : ℚ)) filteredResults).map
      (fun r => mkSearchResult r terms)

/-- Model of `getDocById`: linear lookup by exact id, `none` when absent
(the `|| null` of the source; a found record is always truthy). -/
def getDocById (id : JStr) (docs : List DocChunk) : Option DocChunk :=
  docs.find? (fun d => d.id = id)

/-- Model of `searchByCategory(category, query, limit)`. `docs` is the
cleaned corpus; `results` stands for the output of the transient
MiniSearch instance built over the category-restricted documents
(`tempSearch.search(query, ...)`), used only on the non-empty-query
path. -/
def searchByCategory (category : JStr) (query : JStr) (limit : JSNum)
    (docs : List DocChunk) (results : List MSResult) : List SearchResult :=
  let safeLimit := jsMax (.num 1) (jsOr1 (jsFloor limit))
  let categoryDocs := docs.filter (fun d => d.category = category)
  if jsTrim query = [] then
    (jsSliceTo safeLimit categoryDocs).map (fun d =>
      { id := d.id
        title := d.title
        «section» := d.«section»
        subsection := d.subsection
        source_file := d.source_file
        source_url := d.source_url
        doc_type := d.doc_type
        category := d.category
        score := 0
        snippet := d.content.take SNIPPET_MAX_LENGTH ++
          (if SNIPPET_MAX_LENGTH < d.content.length then dots else []) })
  else
    let terms := splitWs query
    (jsSliceTo safeLimit results).map (fun r => mkSearchResult r terms)

/-- The outcome of the `readFile` call in `initIndex`: the file contents,
or a thrown error message (file missing or unreadable). -/
inductive ReadOutcome where
  | ok : JStr → ReadOutcome
  | err : JStr → ReadOutcome

/-- The load-and-parse phase of `initIndex` (lines 118-126 of
`search-docs.ts`). A read failure is caught and re-thrown as a new error
whose message contains the resolved corpus path and the underlying cause.
The subsequent `JSON.parse(raw)` sits outside the `try`/`catch`, so a
parse failure (modelled by the external `parse` function returning
`.error`) propagates unwrapped. On success nothing prevents index
construction, modelled as `cleanDocs` of the parsed records. -/
def initIndexLoad (docsPath : JStr) (read : ReadOutcome)
    (parse : JStr → Except JStr (List DocChunk)) : Except JStr (List DocChunk) :=
  match read with
  | .err message =>
    .error (("Failed to load SciX documentation index at ".toList) ++ docsPath ++
      (": ".toList) ++ message)
  | .ok raw =>
    match parse raw with
    | .error e => .error e
    | .ok parsedDocs => .ok (cleanDocs parsedDocs)

/-- The control point of one caller executing `initIndex` (lines 113-124
of `search-docs.ts`). The only suspension point of the async function is
the `await readFile(...)`; everything after it (JSON parse, document
cleaning, index construction, the assignment to `miniSearch`) runs
synchronously to completion. -/
inductive InitPC where
  | start
  | reading
  | finished
deriving DecidableEq

/-- The shared module state of `search-docs.ts` as seen by two concurrent
callers of `initIndex`: whether `miniSearch` is non-null (`built`), how
many times the corpus file read has been started (`reads`), and each
caller's control point. -/
structure InitState where
  pcA : InitPC
  pcB : InitPC
  built : Bool
  reads : Nat
deriving DecidableEq

/-- Interleaved small-step semantics of two callers of `initIndex` under
cooperative single-threaded scheduling: from `start`, a caller either
returns immediately when `miniSearch` is already set (the
`if (miniSearch) return;` guard) or issues the `readFile` call and
suspends; from `reading`, it resumes, builds the index and sets
`miniSearch`. -/
inductive InitStep : InitState → InitState → Prop
  | aSkip (p : InitPC) (r : Nat) :
      InitStep ⟨.start, p, true, r⟩ ⟨.finished, p, true, r⟩
  | aRead (p : InitPC) (r : Nat) :
      InitStep ⟨.start, p, false, r⟩ ⟨.reading, p, false, r + 1⟩
  | aBuild (p : InitPC) (b : Bool) (r : Nat) :
      InitStep ⟨.reading, p, b, r⟩ ⟨.finished, p, true, r⟩
  | bSkip (p : InitPC) (r : Nat) :
      InitStep ⟨p, .start, true, r⟩ ⟨p, .finished, true, r⟩
  | bRead (p : InitPC) (r : Nat) :
      InitStep ⟨p, .start, false, r⟩ ⟨p, .reading, false, r + 1⟩
  | bBuild (p : InitPC) (b : Bool) (r : Nat) :
      InitStep ⟨p, .reading, b, r⟩ ⟨p, .finished, true, r⟩

/-- The module state at process start: `miniSearch` null, no reads, both
callers about to enter `initIndex`. -/
def initStart : InitState := ⟨.start, .start, false, 0⟩

theorem find?_range'_some {p : Nat → Bool} :
    ∀ (n s i : Nat), (List.range' s n).find? p = some i →
      p i = true ∧ s ≤ i ∧ i < s + n ∧ ∀ j, s ≤ j → j < i → p j = false := by
  intro n
  induction n with
  | zero => intro s i h; simp at h
  | succ m ih =>
    intro s i h
    rw [List.range'_succ, List.find?_cons] at h
    rcases hp : p s with _ | _
    · rw [hp] at h
      simp only at h
      obtain ⟨h1, h2, h3, h4⟩ := ih (s + 1) i h
      refine ⟨h1, by omega, by omega, ?_⟩
      intro j hj1 hj2
      rcases Nat.eq_or_lt_of_le hj1 with rfl | hlt
      · exact hp
      · exact h4 j hlt hj2
    · rw [hp] at h
      simp only [Option.some.injEq] at h
      subst h
      exact ⟨hp, Nat.le_refl _, by omega, fun j hj1 hj2 => absurd hj2 (by omega)⟩

theorem find?_range'_none {p : Nat → Bool} :
    ∀ (n s : Nat), (List.range' s n).find? p = none →
      ∀ j, s ≤ j → j < s + n → p j = false := by
  intro n
  induction n with
  | zero => intro s h j h1 h2; omega
  | succ m ih =>
    intro s h j h1 h2
    rw [List.range'_succ, List.find?_cons] at h
    rcases hp : p s with _ | _
    · rw [hp] at h
      simp only at h
      rcases Nat.eq_or_lt_of_le h1 with rfl | hlt
      · exact hp
      · exact ih (s + 1) h j hlt (by omega)
    · rw [hp] at h
      simp at h

theorem find?_range_some {p : Nat → Bool} {n i : Nat}
    (h : (List.range n).find? p = some i) :
    p i = true ∧ i < n ∧ ∀ j, j < i → p j = false := by
  rw [List.range_eq_range'] at h
  obtain ⟨h1, _, h3, h4⟩ := find?_range'_some n 0 i h
  exact ⟨h1, by omega, fun j hj => h4 j (Nat.zero_le _) hj⟩

theorem find?_range_none {p : Nat → Bool} {n : Nat}
    (h : (List.range n).find? p = none) : ∀ j, j < n → p j = false := by
  rw [List.range_eq_range'] at h
  intro j hj
  exact find?_range'_none n 0 h j (Nat.zero_le _) (by omega)

/-- A term occurs (case-insensitively) at index `i` of the content: the
lowered term is a prefix of the lowered content from index `i` on. This is
the spec-side notion used to state the snippet claim. -/
def termOccursAt (content term : JStr) (i : Nat) : Bool :=
  (jsToLower term).isPrefixOf ((jsToLower content).drop i)

/-- Some term of the list occurs (case-insensitively) at index `i`. -/
def anyTermAt (content : JStr) (terms : List JStr) (i : Nat) : Bool :=
  terms.any (fun t => termOccursAt content t i)

theorem jsIndexOf_some {hay needle : JStr} {i : Nat}
    (h : jsIndexOf hay needle = some i) :
    needle.isPrefixOf (hay.drop i) = true ∧ i ≤ hay.length ∧
      ∀ j, j < i → needle.isPrefixOf (hay.drop j) = false := by
  unfold jsIndexOf at h
  obtain ⟨h1, h2, h3⟩ := find?_range_some h
  exact ⟨h1, by omega, h3⟩

theorem jsIndexOf_none {hay needle : JStr}
    (h : jsIndexOf hay needle = none) :
    ∀ j, needle.isPrefixOf (hay.drop j) = false := by
  intro j
  rcases Nat.lt_or_ge j (hay.length + 1) with hj | hj
  · exact find?_range_none h j hj
  · have hlen := find?_range_none h hay.length (by omega)
    have hd : hay.drop j = ([] : JStr) := List.drop_eq_nil_of_le (by omega)
    have hd2 : hay.drop hay.length = ([] : JStr) := List.drop_eq_nil_of_le (by omega)
    rw [hd2] at hlen
    rw [hd]
    exact hlen

theorem jsIndexOf_ne_none {hay needle : JStr} {j : Nat}
    (h : needle.isPrefixOf (hay.drop j) = true) : jsIndexOf hay needle ≠ none := by
  intro hn
  rw [jsIndexOf_none hn j] at h
  exact Bool.false_ne_true h

theorem foldl_stepIdx_some {lower : JStr} :
    ∀ (terms : List JStr) (acc : Option Nat) (k : Nat),
      terms.foldl (stepIdx lower) acc = some k →
      acc = some k ∨ ∃ t ∈ terms, jsIndexOf lower (jsToLower t) = some k := by
  intro terms
  induction terms with
  | nil => intro acc k h; exact Or.inl h
  | cons t ts ih =>
    intro acc k h
    rw [List.foldl_cons] at h
    rcases ih (stepIdx lower acc t) k h with h2 | ⟨t', ht', hidx⟩
    · unfold stepIdx at h2
      rcases hj : jsIndexOf lower (jsToLower t) with _ | i
      · rw [hj] at h2
        exact Or.inl h2
      · rw [hj] at h2
        rcases acc with _ | a
        · simp only [Option.some.injEq] at h2
          exact Or.inr ⟨t, List.mem_cons_self t ts, by rw [hj, h2]⟩
        · simp only at h2
          split at h2
          · simp only [Option.some.injEq] at h2
            exact Or.inr ⟨t, List.mem_cons_self t ts, by rw [hj, h2]⟩
          · exact Or.inl h2
    · exact Or.inr ⟨t', List.mem_cons_of_mem t ht', hidx⟩

theorem foldl_stepIdx_min {lower : JStr} :
    ∀ (terms : List JStr) (acc : Option Nat) (k : Nat),
      terms.foldl (stepIdx lower) acc = some k →
      (∀ a, acc = some a → k ≤ a) ∧
        (∀ t ∈ terms, ∀ j, jsIndexOf lower (jsToLower t) = some j → k ≤ j) := by
  intro terms
  induction terms with
  | nil =>
    intro acc k h
    refine ⟨fun a ha => ?_, fun t ht => absurd ht (List.not_mem_nil t)⟩
    rw [List.foldl_nil] at h
    rw [ha] at h
    simp only [Option.some.injEq] at h
    omega
  | cons t ts ih =>
    intro acc k h
    rw [List.foldl_cons] at h
    obtain ⟨ihacc, ihmem⟩ := ih (stepIdx lower acc t) k h
    have hstep : ∀ a, acc = some a → k ≤ a := by
      intro a ha
      unfold stepIdx at ihacc
      rcases hj : jsIndexOf lower (jsToLower t) with _ | i
      · rw [hj] at ihacc
        exact ihacc a ha
      · rw [hj, ha] at ihacc
        simp only at ihacc
        split at ihacc
        · rename_i hlt
          have := ihacc i rfl
          omega
        · exact ihacc a rfl
    refine ⟨hstep, ?_⟩
    intro t' ht' j hj'
    rcases List.mem_cons.mp ht' with rfl | hmem
    · unfold stepIdx at ihacc
      rw [hj'] at ihacc
      rcases acc with _ | a
      · simpa using ihacc j
      · simp only at ihacc
        split at ihacc
        · exact ihacc j rfl
        · rename_i hnlt
          have := ihacc a rfl
          omega
    · exact ihmem t' hmem j hj'

theorem foldl_stepIdx_none {lower : JStr} :
    ∀ (terms : List JStr) (acc : Option Nat),
      terms.foldl (stepIdx lower) acc = none →
      acc = none ∧ ∀ t ∈ terms, jsIndexOf lower (jsToLower t) = none := by
  intro terms
  induction terms with
  | nil => intro acc h; exact ⟨h, fun t ht => absurd ht (List.not_mem_nil t)⟩
  | cons t ts ih =>
    intro acc h
    rw [List.foldl_cons] at h
    obtain ⟨hacc, hmem⟩ := ih (stepIdx lower acc t) h
    unfold stepIdx at hacc
    rcases hj : jsIndexOf lower (jsToLower t) with _ | i
    · rw [hj] at hacc
      refine ⟨hacc, ?_⟩
      intro t' ht'
      rcases List.mem_cons.mp ht' with rfl | hmem'
      · exact hj
      · exact hmem t' hmem'
    · rw [hj] at hacc
      rcases acc with _ | a
      · simp at hacc
      · simp only at hacc
        split at hacc <;> simp at hacc

theorem snippetIdx_some {content : JStr} {terms : List JStr} {k : Nat}
    (h : terms.foldl (stepIdx (jsToLower content)) none = some k) :
    anyTermAt content terms k = true ∧ ∀ j, j < k → anyTermAt content terms j = false := by
  rcases foldl_stepIdx_some terms none k h with h2 | ⟨t, ht, hidx⟩
  · exact absurd h2 (by simp)
  · obtain ⟨hpre, _, _⟩ := jsIndexOf_some hidx
    constructor
    · exact List.any_eq_true.mpr ⟨t, ht, hpre⟩
    · intro j hj
      by_contra hany
      rw [Bool.not_eq_false] at hany
      obtain ⟨t', ht', hocc⟩ := List.any_eq_true.mp hany
      rw [termOccursAt] at hocc
      rcases hj' : jsIndexOf (jsToLower content) (jsToLower t') with _ | j'
      · rw [jsIndexOf_none hj' j] at hocc
        exact Bool.false_ne_true hocc
      · obtain ⟨_, _, hmin⟩ := jsIndexOf_some hj'
        have hle : j' ≤ j := by
          by_contra hgt
          push_neg at hgt
          rw [hmin j hgt] at hocc
          exact Bool.false_ne_true hocc
        have := (foldl_stepIdx_min terms none k h).2 t' ht' j' hj'
        omega

theorem snippetIdx_none {content : JStr} {terms : List JStr}
    (h : terms.foldl (stepIdx (jsToLower content)) none = none) :
    ∀ i, anyTermAt content terms i = false := by
  intro i
  obtain ⟨_, hall⟩ := foldl_stepIdx_none terms none h
  rw [anyTermAt]
  rw [List.any_eq_false]
  intro t ht
  rw [termOccursAt]
  exact Bool.not_eq_true _ |>.mpr (by
    have := jsIndexOf_none (hall t ht) i
    exact this)

theorem snippetIdx_ne_none {content : JStr} {terms : List JStr} {i : Nat}
    (h : anyTermAt content terms i = true) :
    terms.foldl (stepIdx (jsToLower content)) none ≠ none := by
  intro hn
  rw [snippetIdx_none hn i] at h
  exact Bool.false_ne_true h

theorem snippetIdx_eq_of_leftmost {content : JStr} {terms : List JStr} {idx : Nat}
    (h1 : anyTermAt content terms idx = true)
    (h2 : ∀ j, j < idx → anyTermAt content terms j = false) :
    terms.foldl (stepIdx (jsToLower content)) none = some idx := by
  rcases hr : terms.foldl (stepIdx (jsToLower content)) none with _ | k
  · exact absurd hr (snippetIdx_ne_none h1)
  · obtain ⟨hk, hkleft⟩ := snippetIdx_some hr
    rcases Nat.lt_trichotomy k idx with hlt | heq | hgt
    · rw [h2 k hlt] at hk
      exact absurd hk Bool.false_ne_true
    · rw [heq]
    · rw [hkleft idx hgt] at h1
      exact absurd h1 Bool.false_ne_true

/-- Claim C3: `makeSnippet(content, terms, maxLen)` is a deterministic pure
function satisfying: empty content yields the empty string; if no term
occurs (case-insensitively) in the content, the result is the first
`maxLen` characters with `'...'` appended iff the content is longer than
`maxLen`; and if `idx` is the leftmost case-insensitive occurrence of any
term, the result is `content[start, stop)` with `start = max(0, idx -
floor(maxLen/2))` and `stop = min(content.length, start + maxLen)`,
prefixed with `'...'` iff `start > 0` and suffixed with `'...'` iff
`stop < content.length`. -/
theorem claim_C3_makeSnippet (content : JStr) (terms : List JStr) (maxLen : Nat) :
    (content = [] → makeSnippet content terms maxLen = [])
    ∧ (content ≠ [] → (∀ i, anyTermAt content terms i = false) →
        makeSnippet content terms maxLen =
          content.take maxLen ++ (if maxLen < content.length then dots else []))
    ∧ (∀ idx, content ≠ [] → anyTermAt content terms idx = true →
        (∀ j, j < idx → anyTermAt content terms j = false) →
        makeSnippet content terms maxLen =
          (if 0 < idx - maxLen / 2 then dots else []) ++
          ((content.drop (idx - maxLen / 2)).take
            (min content.length (idx - maxLen / 2 + maxLen) - (idx - maxLen / 2))) ++
          (if min content.length (idx - maxLen / 2 + maxLen) < content.length
            then dots else [])) := by
  refine ⟨fun h => by simp [makeSnippet, h], ?_, ?_⟩
  · intro hne hall
    have hfold : terms.foldl (stepIdx (jsToLower content)) none = none := by
      rcases hr : terms.foldl (stepIdx (jsToLower content)) none with _ | k
      · rfl
      · obtain ⟨hk, _⟩ := snippetIdx_some hr
        rw [hall k] at hk
        exact absurd hk Bool.false_ne_true
    simp only [makeSnippet, if_neg hne, hfold]
  · intro idx hne hocc hleft
    have hfold := snippetIdx_eq_of_leftmost hocc hleft
    simp only [makeSnippet, if_neg hne, hfold]

/-- Witness for C3 at concrete inputs: content `"hello world"`, term
`"World"`, window 6; the leftmost case-insensitive occurrence is at 6. -/
theorem claim_C3_makeSnippet_witness :
    (('h' :: "ello world".toList) ≠ [] ∧
      anyTermAt ('h' :: "ello world".toList) ["World".toList] 6 = true ∧
      (∀ j, j < 6 → anyTermAt ('h' :: "ello world".toList) ["World".toList] j = false)) ∧
    makeSnippet ('h' :: "ello world".toList) ["World".toList] 6 =
      (if 0 < 6 - 6 / 2 then dots else []) ++
      ((('h' :: "ello world".toList).drop (6 - 6 / 2)).take
        (min ('h' :: "ello world".toList).length (6 - 6 / 2 + 6) - (6 - 6 / 2))) ++
      (if min ('h' :: "ello world".toList).length (6 - 6 / 2 + 6) <
          ('h' :: "ello world".toList).length then dots else []) := by
  refine ⟨⟨by decide, by decide, by decide⟩, ?_⟩
  exact (claim_C3_makeSnippet ('h' :: "ello world".toList) ["World".toList] 6).2.2 6
    (by decide) (by decide) (by decide)

/-- The highest score in a raw result set (`0` for an empty set): the
spec-side meaning of `topScore`. -/
def maxScore (results : List MSResult) : ℚ :=
  results.foldl (fun m r => max m r.score) 0

theorem le_foldl_max : ∀ (l : List MSResult) (a : ℚ),
    a ≤ l.foldl (fun m r => max m r.score) a := by
  intro l
  induction l with
  | nil => intro a; simp
  | cons r rest ih =>
    intro a
    rw [List.foldl_cons]
    exact le_trans (le_max_left a r.score) (ih _)

theorem foldl_max_of_le : ∀ (l : List MSResult) (a : ℚ),
    (∀ r ∈ l, r.score ≤ a) → l.foldl (fun m r => max m r.score) a = a := by
  intro l
  induction l with
  | nil => intro a _; rfl
  | cons r rest ih =>
    intro a h
    rw [List.foldl_cons]
    rw [max_eq_left (h r (List.mem_cons_self r rest))]
    exact ih a (fun r' hr' => h r' (List.mem_cons_of_mem r hr'))

theorem maxScore_head {r : MSResult} {rest : List MSResult}
    (hsorted : (r :: rest).Pairwise (fun a b => b.score ≤ a.score))
    (hnonneg : 0 ≤ r.score) : maxScore (r :: rest) = r.score := by
  rw [maxScore, List.foldl_cons, max_eq_right hnonneg]
  exact foldl_max_of_le rest r.score
    (fun r' hr' => List.rel_of_pairwise_cons hsorted hr')

theorem coercedLimit_pos (limit : JSNum) : 1 ≤ coercedLimit limit := by
  rcases limit with q | _ | _ | _ <;> simp [coercedLimit]


theorem sliceEnd_intCast (len : Nat) (m : Int) (hm : 0 ≤ m) :
    jsSliceEndIndex len (.num (m : ℚ)) = min m.toNat len := by
  rw [jsSliceEndIndex]
  have ht : jsTrunc (m : ℚ) = m := by
    rw [jsTrunc]
    rw [if_neg (by exact_mod_cast not_lt.mpr hm)]
    show ⌊(m : ℚ)⌋ = m
    simp
  simp only [ht]
  rw [if_neg (by omega)]

theorem slice_map_len (m : Int) (hm : 0 ≤ m) (f : MSResult → SearchResult)
    (l : List MSResult) :
    ((jsSliceTo (.num (m : ℚ)) l).map f).length = min m.toNat l.length := by
  rw [List.length_map, jsSliceTo, sliceEnd_intCast _ _ hm, List.length_take]
  omega

/-- Claim C1: for every non-empty query, `searchDocs` applies the relative
score cutoff. With `topScore` the highest score in the raw result set: if
`topScore > 0` every returned hit has `score >= topScore * 0.4`, and if
`topScore == 0` no filtering is applied — the returned hits are exactly an
initial segment of the raw results. The hypotheses state what MiniSearch
guarantees about its output: scores are non-negative and the result list
is sorted by non-increasing score (so `results[0]` holds the highest
score). -/
theorem claim_C1_score_cutoff (query : JStr) (limit : JSNum) (docs : List DocChunk)
    (results : List MSResult)
    (hq : jsTrim query ≠ [])
    (hsorted : results.Pairwise (fun a b => b.score ≤ a.score))
    (hnonneg : ∀ r ∈ results, 0 ≤ r.score) :
    (0 < maxScore results →
      ∀ hit ∈ searchDocs query limit docs results,
        maxScore results * (0.4 : ℚ) ≤ hit.score)
    ∧ (maxScore results = 0 →
      (searchDocs query limit docs results).map (fun h => (h.id, h.score)) <+:
        results.map (fun r => (r.id, r.score))) := by
  constructor
  · intro hpos hit hmem
    rcases results with _ | ⟨r, rest⟩
    · rw [maxScore] at hpos
      simp at hpos
    · have hhead : maxScore (r :: rest) = r.score :=
        maxScore_head hsorted (hnonneg r (List.mem_cons_self r rest))
      rw [hhead] at hpos
      simp only [searchDocs, if_neg hq, jsSliceTo] at hmem
      rw [if_pos hpos] at hmem
      obtain ⟨r', hr', rfl⟩ := List.mem_map.mp hmem
      have hr'2 := List.mem_of_mem_take hr'
      obtain ⟨_, hpred⟩ := List.mem_filter.mp hr'2
      have hle := of_decide_eq_true hpred
      rw [hhead]
      rw [MIN_SCORE_FRAC] at hle
      exact hle
  · intro hzero
    rcases results with _ | ⟨r, rest⟩
    · simp only [searchDocs, if_neg hq, jsSliceTo]
      simp
    · have hhead : maxScore (r :: rest) = r.score :=
        maxScore_head hsorted (hnonneg r (List.mem_cons_self r rest))
      rw [hhead] at hzero
      simp only [searchDocs, if_neg hq, jsSliceTo]
      simp only [hzero, lt_self_iff_false, if_false]
      rw [List.map_map]
      have hcomp : ((fun h : SearchResult => (h.id, h.score)) ∘
          (fun r => mkSearchResult r (splitWs (jsTrim query)))) =
          (fun r : MSResult => (r.id, r.score)) := funext (fun r => rfl)
      rw [hcomp, List.map_take]
      exact List.take_prefix _ _

/-- Claim C2: `searchDocs` returns at most `max(1, floor(L))` hits for a
finite limit `L` (at most 5 for a missing or non-finite limit — that is,
at most `coercedLimit limit`), and never more than the corpus size. The
hypothesis states the MiniSearch guarantee that a search returns at most
one hit per indexed document. -/
theorem claim_C2_limit (query : JStr) (limit : JSNum) (docs : List DocChunk)
    (results : List MSResult)
    (hlen : results.length ≤ docs.length) :
    (searchDocs query limit docs results).length ≤ (coercedLimit limit).toNat
    ∧ (searchDocs query limit docs results).length ≤ docs.length := by
  by_cases hq : jsTrim query = []
  · simp [searchDocs, hq]
  · have hc := coercedLimit_pos limit
    simp only [searchDocs, if_neg hq]
    by_cases hd : docs.length = 0
    · rw [if_pos hd]
      split
      · rw [slice_map_len _ (by omega)]
        have hfl := List.length_filter_le
          (fun r => decide ((match results with | [] => (0:ℚ) | r :: _ => r.score) *
            MIN_SCORE_FRAC ≤ r.score)) results
        constructor <;> omega
      · rw [slice_map_len _ (by omega)]
        constructor <;> omega
    · rw [if_neg hd]
      have hm0 : (0 : Int) ≤ min (coercedLimit limit) (docs.length : Int) := by
        omega
      split
      · rw [slice_map_len _ hm0]
        have hfl := List.length_filter_le
          (fun r => decide ((match results with | [] => (0:ℚ) | r :: _ => r.score) *
            MIN_SCORE_FRAC ≤ r.score)) results
        constructor <;> omega
      · rw [slice_map_len _ hm0]
        constructor <;> omega

/-- A minimal document used in concrete witnesses. -/
def docW : DocChunk := ⟨['d'], [], [], [], [], ['T'], [], [], ['b'], 1⟩

/-- A second minimal document used in concrete witnesses. -/
def docW2 : DocChunk := ⟨['e'], [], [], [], [], ['U'], [], [], ['c'], 1⟩

/-- A high-scoring raw hit used in concrete witnesses. -/
def hitHi : MSResult := ⟨['d'], ['T'], [], [], [], [], [], [], ['b'], 10⟩

/-- A low-scoring raw hit used in concrete witnesses. -/
def hitLo : MSResult := ⟨['e'], ['U'], [], [], [], [], [], [], ['c'], 3⟩

/-- Witness for C1 at a concrete input: two raw hits with scores 10 and 3;
the cutoff is 4, so the returned hits all score at least 4. -/
theorem claim_C1_score_cutoff_witness :
    (jsTrim ['q'] ≠ [] ∧
      ([hitHi, hitLo]).Pairwise (fun a b => b.score ≤ a.score) ∧
      (∀ r ∈ [hitHi, hitLo], 0 ≤ r.score)) ∧
    (0 < maxScore [hitHi, hitLo] →
      ∀ hit ∈ searchDocs ['q'] (.num 5) [docW, docW2] [hitHi, hitLo],
        maxScore [hitHi, hitLo] * (0.4 : ℚ) ≤ hit.score) := by
  refine ⟨⟨by decide, by decide, by decide⟩, ?_⟩
  exact (claim_C1_score_cutoff ['q'] (.num 5) [docW, docW2] [hitHi, hitLo]
    (by decide) (by decide) (by decide)).1

/-- Witness for C2 at a concrete input. -/
theorem claim_C2_limit_witness :
    ([hitHi].length ≤ [docW].length) ∧
    (searchDocs ['q'] (.num 3) [docW] [hitHi]).length ≤ (coercedLimit (.num 3)).toNat ∧
    (searchDocs ['q'] (.num 3) [docW] [hitHi]).length ≤ [docW].length := by
  refine ⟨by decide, ?_⟩
  exact claim_C2_limit ['q'] (.num 3) [docW] [hitHi] (by decide)

theorem searchDocs_hit_source {query : JStr} {limit : JSNum}
    {docs : List DocChunk} {results : List MSResult} {hit : SearchResult}
    (hmem : hit ∈ searchDocs query limit docs results) :
    ∃ r ∈ results, hit = mkSearchResult r (splitWs (jsTrim query)) := by
  simp only [searchDocs] at hmem
  split at hmem
  · exact absurd hmem (List.not_mem_nil hit)
  · obtain ⟨r, hr, rfl⟩ := List.mem_map.mp hmem
    have hr' := List.mem_of_mem_take hr
    refine ⟨r, ?_, rfl⟩
    split at hr'
    · exact (List.mem_filter.mp hr').1
    · exact hr'

theorem cleanDocs_invariant {parsed : List DocChunk} {d : DocChunk}
    (h : d ∈ cleanDocs parsed) :
    d.title ≠ [] ∧ d.title ≠ ['4', '0', '4'] ∧ d.content ≠ [] ∧
      d.char_count = (d.content.length : Int) ∧ isWhatsNew d = false := by
  rw [cleanDocs] at h
  obtain ⟨hmap, hkeep⟩ := List.mem_filter.mp h
  obtain ⟨p, _, rfl⟩ := List.mem_map.mp hmap
  rw [keepDoc] at hkeep
  split at hkeep
  · exact absurd hkeep (by simp)
  · rename_i hcond
    push_neg at hcond
    obtain ⟨h1, h2, h3, _⟩ := hcond
    exact ⟨h1, h3, h2, rfl, by simpa using hkeep⟩

/-- Claim C4: every chunk retained by the load pipeline has a non-empty
title different from the `'404'` sentinel, non-empty content, and a
`char_count` equal to the length of its (cleaned) content; and no retained
chunk — hence nothing reachable by membership or by-id lookup — matches
the whole-document "what's new" navigation-noise check. -/
theorem claim_C4_load_invariant (parsed : List DocChunk) (d : DocChunk) (i : JStr) :
    (d ∈ cleanDocs parsed →
      d.title ≠ [] ∧ d.title ≠ ['4', '0', '4'] ∧ d.content ≠ [] ∧
        d.char_count = (d.content.length : Int) ∧ isWhatsNew d = false)
    ∧ (getDocById i (cleanDocs parsed) = some d →
      d.title ≠ [] ∧ d.title ≠ ['4', '0', '4'] ∧ d.content ≠ [] ∧
        d.char_count = (d.content.length : Int) ∧ isWhatsNew d = false)
    ∧ (∀ (query : JStr) (limit : JSNum) (results : List MSResult)
        (hit : SearchResult),
      (∀ r ∈ results, ∃ d0 ∈ cleanDocs parsed, storedFrom r d0) →
      hit ∈ searchDocs query limit (cleanDocs parsed) results →
      ∃ d0 ∈ cleanDocs parsed, hit.id = d0.id ∧ d0.title ≠ [] ∧
        d0.title ≠ ['4', '0', '4'] ∧ d0.content ≠ [] ∧
        d0.char_count = (d0.content.length : Int) ∧ isWhatsNew d0 = false) := by
  refine ⟨fun h => cleanDocs_invariant h,
    fun h => cleanDocs_invariant (by rw [getDocById] at h; exact List.mem_of_find?_eq_some h),
    ?_⟩
  intro query limit results hit hfrom hmem
  obtain ⟨r, hr, rfl⟩ := searchDocs_hit_source hmem
  obtain ⟨d0, hd0, hstored⟩ := hfrom r hr
  obtain ⟨i1, i2, i3, i4, i5⟩ := cleanDocs_invariant hd0
  exact ⟨d0, hd0, hstored.1, i1, i2, i3, i4, i5⟩

/-- A concrete raw record used in the C4 witness. -/
def rawDocW : DocChunk :=
  ⟨("doc1".toList), ("guide".toList), [], ("help".toList), ("faq".toList),
    ("Old".toList), ("Sec".toList), ("Sub".toList), ("hello world".toList), 0⟩

/-- Witness for C4 at a concrete input. -/
theorem claim_C4_load_invariant_witness :
    (cleanDoc rawDocW ∈ cleanDocs [rawDocW]) ∧
    ((cleanDoc rawDocW).title ≠ [] ∧ (cleanDoc rawDocW).title ≠ ['4', '0', '4'] ∧
      (cleanDoc rawDocW).content ≠ [] ∧
      (cleanDoc rawDocW).char_count = ((cleanDoc rawDocW).content.length : Int) ∧
      isWhatsNew (cleanDoc rawDocW) = false) :=
  ⟨by decide, (claim_C4_load_invariant [rawDocW] (cleanDoc rawDocW) []).1 (by decide)⟩

theorem find?_eq_head?_filter (p : α → Bool) (l : List α) :
    l.find? p = (l.filter p).head? := by
  induction l with
  | nil => rfl
  | cons a t ih =>
    rw [List.find?_cons, List.filter_cons]
    rcases h : p a with _ | _
    · rw [ih]
      simp [h]
    · simp [h]

/-- Claim C5: the derived title is the first candidate, in the order
(1) extracted heading, (2) trimmed subsection, (3) trimmed section,
(4) trimmed title field, (5) title-cased source filename, (6) raw id,
that is non-empty and is not navigation noise. -/
theorem claim_C5_title_precedence (doc : DocChunk) (heading : JStr) (c : JStr)
    (h : ([heading, jsTrim doc.subsection, jsTrim doc.«section», jsTrim doc.title,
        slugToTitle doc.source_file, doc.id].filter
        (fun x => x ≠ [] && ! isNavText x)).head? = some c) :
    deriveTitle doc heading = c := by
  rw [deriveTitle, find?_eq_head?_filter, List.filter_filter]
  have hfun : (fun a : JStr => (decide ¬isNavText a = true) && decide (a ≠ [])) =
      (fun x : JStr => decide (x ≠ []) && ! isNavText x) := by
    funext x
    rcases hx : isNavText x <;> simp [hx, Bool.and_comm]
  rw [hfun, h]

/-- Witness for C5 at a concrete input: the heading is navigation noise
and the subsection is empty, so the trimmed section wins. -/
theorem claim_C5_title_precedence_witness :
    (([("Whats new".toList), jsTrim rawDocW.subsection, jsTrim rawDocW.«section»,
        jsTrim rawDocW.title, slugToTitle rawDocW.source_file, rawDocW.id].filter
        (fun x => x ≠ [] && ! isNavText x)).head? = some ("Sub".toList)) ∧
    deriveTitle rawDocW ("Whats new".toList) = ("Sub".toList) :=
  ⟨by decide, claim_C5_title_precedence rawDocW ("Whats new".toList) ("Sub".toList) (by decide)⟩

theorem safeLimit_num (q : ℚ) :
    jsMax (.num 1) (jsOr1 (jsFloor (.num q))) = .num ((max 1 ⌊q⌋ : Int) : ℚ) := by
  rw [jsFloor, jsOr1]
  split
  · rw [jsMax]
    congr 1
    push_cast
    rfl
  · rename_i hf
    simp only [jsTruthy, decide_eq_true_eq, Decidable.not_not] at hf
    have hz : ⌊q⌋ = 0 := by exact_mod_cast hf
    rw [jsMax, hz]
    norm_num

/-- Claim C6: every hit of `searchByCategory(cat, query, limit)` has
category exactly `cat`; and on an empty or all-whitespace query the hits
are an initial segment of the category-matching chunks in corpus order,
each with score `0` and a plain head-truncation snippet (first 260
characters, `'...'` appended iff the content is longer). The final
conjunct verifies the `slice(0, safeLimit)` truncation: for a finite
limit `q` the call returns exactly `min(max(1, floor(q)), candidates)`
hits — "up to limit" chunks — on both query paths. The hypothesis states
the MiniSearch guarantee for the transient index: every raw hit stores
the fields of some indexed (category-matching) document. -/
theorem claim_C6_category (category query : JStr) (limit : JSNum)
    (docs : List DocChunk) (results : List MSResult)
    (hres : ∀ r ∈ results, ∃ d ∈ docs, d.category = category ∧ storedFrom r d) :
    (∀ hit ∈ searchByCategory category query limit docs results,
      hit.category = category)
    ∧ (jsTrim query = [] →
      (searchByCategory category query limit docs results).map (fun h => h.id) <+:
        (docs.filter (fun d => d.category = category)).map (fun d => d.id))
    ∧ (jsTrim query = [] →
      ∀ hit ∈ searchByCategory category query limit docs results, hit.score = 0)
    ∧ (jsTrim query = [] →
      ∀ hit ∈ searchByCategory category query limit docs results,
        ∃ d ∈ docs, d.category = category ∧ hit.id = d.id ∧
          hit.snippet = d.content.take 260 ++
            (if 260 < d.content.length then dots else []))
    ∧ (∀ q : ℚ, limit = .num q →
      (searchByCategory category query limit docs results).length =
        min (max 1 ⌊q⌋).toNat
          (if jsTrim query = []
            then (docs.filter (fun d => d.category = category)).length
            else results.length)) := by
  refine ⟨?_, ?_, ?_, ?_, ?_⟩
  · intro hit hmem
    simp only [searchByCategory] at hmem
    split at hmem
    · obtain ⟨d, hd, rfl⟩ := List.mem_map.mp hmem
      have hd2 := List.mem_of_mem_take hd
      obtain ⟨_, hpred⟩ := List.mem_filter.mp hd2
      exact of_decide_eq_true hpred
    · obtain ⟨r, hr, rfl⟩ := List.mem_map.mp hmem
      have hr2 := List.mem_of_mem_take hr
      obtain ⟨d, _, hcat, hstored⟩ := hres r hr2
      rw [mkSearchResult]
      exact hstored.2.2.2.2.2.2.2.1.trans hcat
  · intro hq
    simp only [searchByCategory, if_pos hq, jsSliceTo]
    rw [List.map_map]
    have hcomp : ((fun h : SearchResult => h.id) ∘ (fun d : DocChunk =>
        ({ id := d.id, title := d.title, «section» := d.«section»,
           subsection := d.subsection, source_file := d.source_file,
           source_url := d.source_url, doc_type := d.doc_type,
           category := d.category, score := 0,
           snippet := d.content.take SNIPPET_MAX_LENGTH ++
             (if SNIPPET_MAX_LENGTH < d.content.length then dots else []) } :
          SearchResult))) = (fun d : DocChunk => d.id) := funext (fun d => rfl)
    rw [hcomp, List.map_take]
    exact List.take_prefix _ _
  · intro hq hit hmem
    simp only [searchByCategory, if_pos hq] at hmem
    obtain ⟨d, _, rfl⟩ := List.mem_map.mp hmem
    rfl
  · intro hq hit hmem
    simp only [searchByCategory, if_pos hq] at hmem
    obtain ⟨d, hd, rfl⟩ := List.mem_map.mp hmem
    have hd2 := List.mem_of_mem_take hd
    obtain ⟨hdocs, hpred⟩ := List.mem_filter.mp hd2
    exact ⟨d, hdocs, of_decide_eq_true hpred, rfl, rfl⟩
  · intro q hlim
    subst hlim
    have hm : (0 : Int) ≤ max 1 ⌊q⌋ := by omega
    by_cases hq : jsTrim query = []
    · simp only [searchByCategory, safeLimit_num q, if_pos hq]
      rw [List.length_map, jsSliceTo, sliceEnd_intCast _ _ hm, List.length_take]
      omega
    · simp only [searchByCategory, safeLimit_num q, if_neg hq]
      rw [List.length_map, jsSliceTo, sliceEnd_intCast _ _ hm, List.length_take]
      omega

/-- Witness for C6 at a concrete input (empty query path): two documents
of the category but limit 1, so exactly one hit is returned. -/
theorem claim_C6_category_witness :
    (∀ r ∈ ([] : List MSResult), ∃ d ∈ [docW, docW2], d.category = docW.category ∧
      storedFrom r d) ∧
    (∀ hit ∈ searchByCategory docW.category [] (.num 1) [docW, docW2] [],
      hit.category = docW.category) ∧
    ((JSNum.num 1 : JSNum) = .num 1 ∧
      (searchByCategory docW.category [] (.num 1) [docW, docW2] []).length =
        min (max 1 ⌊(1 : ℚ)⌋).toNat
          (if jsTrim ([] : JStr) = []
            then ([docW, docW2].filter (fun d => d.category = docW.category)).length
            else ([] : List MSResult).length)) :=
  ⟨by simp,
    (claim_C6_category docW.category [] (.num 1) [docW, docW2] [] (by simp)).1,
    rfl,
    (claim_C6_category docW.category [] (.num 1) [docW, docW2] []
      (by simp)).2.2.2.2 1 rfl⟩

theorem sliceEnd_one (len : Nat) : jsSliceEndIndex len (.num 1) = min 1 len := by
  have h := sliceEnd_intCast len 1 (by omega)
  simpa using h

theorem safeLimit_lt_one {q : ℚ} (hq : q < 1) :
    jsMax (.num 1) (jsOr1 (jsFloor (.num q))) = .num 1 := by
  have hfl : ⌊q⌋ ≤ 0 := by
    have : ⌊q⌋ < 1 := Int.floor_lt.mpr (by exact_mod_cast hq)
    omega
  rw [jsFloor, jsOr1]
  split
  · rw [jsMax]
    rw [max_eq_left (by exact_mod_cast hfl.trans (by omega))]
  · rw [jsMax]
    norm_num

/-- Claim C10: `searchByCategory` coerces its limit as
`Math.max(1, Math.floor(limit) || 1)`: a `NaN` limit yields at most one
hit (not the documented default of 10), a zero, negative or sub-1 limit is
clamped to 1, and a `+Infinity` limit applies no truncation at all. -/
theorem claim_C10_category_limit (category query : JStr) (docs : List DocChunk)
    (results : List MSResult) :
    ((searchByCategory category query .nan docs results).length =
      min 1 (if jsTrim query = []
        then (docs.filter (fun d => d.category = category)).length
        else results.length))
    ∧ (∀ q : ℚ, q < 1 →
      (searchByCategory category query (.num q) docs results).length =
        min 1 (if jsTrim query = []
          then (docs.filter (fun d => d.category = category)).length
          else results.length))
    ∧ ((searchByCategory category query .posInf docs results).length =
      (if jsTrim query = []
        then (docs.filter (fun d => d.category = category)).length
        else results.length)) := by
  have hnan : jsMax (.num 1) (jsOr1 (jsFloor .nan)) = .num 1 := rfl
  have hinf : jsMax (.num 1) (jsOr1 (jsFloor .posInf)) = .posInf := rfl
  refine ⟨?_, ?_, ?_⟩
  · simp only [searchByCategory, hnan]
    split
    · rw [List.length_map, jsSliceTo, sliceEnd_one, List.length_take]
      omega
    · rw [List.length_map, jsSliceTo, sliceEnd_one, List.length_take]
      omega
  · intro q hq
    simp only [searchByCategory, safeLimit_lt_one hq]
    split
    · rw [List.length_map, jsSliceTo, sliceEnd_one, List.length_take]
      omega
    · rw [List.length_map, jsSliceTo, sliceEnd_one, List.length_take]
      omega
  · simp only [searchByCategory, hinf]
    split
    · rw [List.length_map, jsSliceTo, jsSliceEndIndex, List.take_length]
    · rw [List.length_map, jsSliceTo, jsSliceEndIndex, List.take_length]

/-- Witness for C10 at a concrete input: a limit below one. -/
theorem claim_C10_category_limit_witness :
    ((1 : ℚ) / 2 < 1) ∧
    (searchByCategory docW.category [] (.num (1 / 2)) [docW, docW2] []).length =
      min 1 (if jsTrim ([] : JStr) = []
        then ([docW, docW2].filter (fun d => d.category = docW.category)).length
        else ([] : List MSResult).length) :=
  ⟨by norm_num, (claim_C10_category_limit docW.category [] [docW, docW2] []).2.1
    (1 / 2) (by norm_num)⟩

/-- Claim C9: `getDocById` returns the chunk whose id exactly equals the
argument (`none` — never an exception — when absent); and for every id in
a prior `searchDocs` result over the cleaned corpus, `getDocById` finds a
document with that id whose content length equals its `char_count`. The
hypothesis states the MiniSearch guarantee that every raw hit stores the
fields of some indexed document. -/
theorem claim_C9_get_by_id (parsed : List DocChunk) (query : JStr) (limit : JSNum)
    (results : List MSResult) (i : JStr)
    (hfrom : ∀ r ∈ results, ∃ d ∈ cleanDocs parsed, storedFrom r d) :
    (∀ d, getDocById i (cleanDocs parsed) = some d → d.id = i ∧ d ∈ cleanDocs parsed)
    ∧ (getDocById i (cleanDocs parsed) = none ↔ ∀ d ∈ cleanDocs parsed, d.id ≠ i)
    ∧ (∀ hit ∈ searchDocs query limit (cleanDocs parsed) results,
      ∃ d, getDocById hit.id (cleanDocs parsed) = some d ∧ d.id = hit.id ∧
        d.char_count = (d.content.length : Int)) := by
  refine ⟨?_, ?_, ?_⟩
  · intro d hd
    rw [getDocById] at hd
    have hp := List.find?_some hd
    simp only [decide_eq_true_eq] at hp
    exact ⟨hp, List.mem_of_find?_eq_some hd⟩
  · rw [getDocById, List.find?_eq_none]
    constructor
    · intro h d hd
      simpa using h d hd
    · intro h d hd
      simpa using h d hd
  · intro hit hmem
    simp only [searchDocs] at hmem
    split at hmem
    · exact absurd hmem (List.not_mem_nil hit)
    · obtain ⟨r, hr, rfl⟩ := List.mem_map.mp hmem
      have hr' := List.mem_of_mem_take hr
      have hrmem : r ∈ results := by
        split at hr'
        · exact (List.mem_filter.mp hr').1
        · exact hr'
      obtain ⟨d0, hd0, hstored⟩ := hfrom r hrmem
      have hid : (mkSearchResult r (splitWs (jsTrim query))).id = d0.id := hstored.1
      rcases hfind : getDocById (mkSearchResult r (splitWs (jsTrim query))).id
          (cleanDocs parsed) with _ | d
      · rw [getDocById, List.find?_eq_none] at hfind
        have := hfind d0 hd0
        rw [hid] at this
        simp at this
      · have hfind2 := hfind
        rw [getDocById] at hfind2
        have hp := List.find?_some hfind2
        simp only [decide_eq_true_eq] at hp
        have hdmem := List.mem_of_find?_eq_some hfind2
        exact ⟨d, rfl, hp, (cleanDocs_invariant hdmem).2.2.2.1⟩

/-- The raw hit used in the C9 witness: its stored fields are those of
the single retained document of the one-record corpus `[rawDocW]`. -/
def hitW : MSResult :=
  ⟨("doc1".toList), ("Sub".toList), ("Sec".toList), ("Sub".toList),
    ("guide".toList), [], ("help".toList), ("faq".toList),
    ("hello world".toList), 7⟩

/-- Witness for C9 at a concrete input: a hit whose stored fields come
from the single retained document of a one-record corpus. -/
theorem claim_C9_get_by_id_witness :
    (∀ r ∈ [hitW], ∃ d ∈ cleanDocs [rawDocW], storedFrom r d) ∧
    (∀ hit ∈ searchDocs ['q'] (.num 5) (cleanDocs [rawDocW]) [hitW],
      ∃ d, getDocById hit.id (cleanDocs [rawDocW]) = some d ∧ d.id = hit.id ∧
        d.char_count = (d.content.length : Int)) := by
  have hfrom : ∀ r ∈ [hitW], ∃ d ∈ cleanDocs [rawDocW], storedFrom r d := by
    intro r hr
    refine ⟨cleanDoc rawDocW, by decide, ?_⟩
    rw [List.mem_singleton] at hr
    subst hr
    refine ⟨by decide, by decide, by decide, by decide, by decide, by decide,
      by decide, by decide, by decide⟩
  exact ⟨hfrom,
    (claim_C9_get_by_id [rawDocW] ['q'] (.num 5) [hitW] ("doc1".toList) hfrom).2.2⟩

/-- Counterexample for C7: under interleaved suspension, both callers pass
the `if (miniSearch) return;` guard before either build completes, so the
corpus file is read twice in one process — the guard is a completion flag,
not a memoized in-flight-build reference, and reading "at most once per
process" is false. -/
theorem claim_C7_counterexample :
    Relation.ReflTransGen InitStep initStart ⟨.finished, .finished, true, 2⟩ ∧
    ¬ (∀ s : InitState, Relation.ReflTransGen InitStep initStart s → s.reads ≤ 1) := by
  have htrace : Relation.ReflTransGen InitStep initStart
      ⟨.finished, .finished, true, 2⟩ := by
    refine Relation.ReflTransGen.head (InitStep.aRead .start 0) ?_
    refine Relation.ReflTransGen.head (InitStep.bRead .reading 1) ?_
    refine Relation.ReflTransGen.head (InitStep.aBuild .reading false 2) ?_
    exact Relation.ReflTransGen.single (InitStep.bBuild .finished true 2)
  refine ⟨htrace, fun h => ?_⟩
  have h2 := h _ htrace
  simp at h2

/-- Amended C7: the build is guarded only by a completion check on the
cached index (`if (miniSearch) return;`, with `miniSearch` assigned after
the build finishes). Once a build has completed, any further step of
either caller performs no additional read — a second build request while
one is cached is a no-op — but before completion each of the two callers
may read the corpus file once, so a process performs at most two reads,
not at most one. -/
theorem claim_C7_amended :
    (∀ s t : InitState, InitStep s t → s.built = true →
      t.reads = s.reads ∧ t.built = true)
    ∧ (∀ s : InitState, Relation.ReflTransGen InitStep initStart s → s.reads ≤ 2) := by
  constructor
  · intro s t hstep hbuilt
    cases hstep <;> simp_all
  · have hinv : ∀ s : InitState, Relation.ReflTransGen InitStep initStart s →
        s.reads ≤ (if s.pcA = .start then 0 else 1) +
          (if s.pcB = .start then 0 else 1) := by
      intro s h
      induction h with
      | refl => simp [initStart]
      | tail hsteps hstep ih =>
        cases hstep <;> simp_all <;> omega
    intro s hreach
    have h := hinv s hreach
    by_cases h1 : s.pcA = InitPC.start <;> by_cases h2 : s.pcB = InitPC.start <;>
      simp [h1, h2] at h <;> omega

/-- Witness for the amended C7 at a concrete step: with the index already
built, a caller entering `initIndex` returns without reading. -/
theorem claim_C7_amended_witness :
    InitStep ⟨.start, .start, true, 0⟩ ⟨.finished, .start, true, 0⟩ ∧
    (InitState.built ⟨.start, .start, true, 0⟩ = true) ∧
    (InitState.reads ⟨.finished, .start, true, 0⟩ =
      InitState.reads ⟨.start, .start, true, 0⟩ ∧
      InitState.built ⟨.finished, .start, true, 0⟩ = true) :=
  ⟨InitStep.aSkip .start 0, rfl,
    claim_C7_amended.1 ⟨.start, .start, true, 0⟩ ⟨.finished, .start, true, 0⟩
      (InitStep.aSkip .start 0) rfl⟩

/-- Counterexample for C8: a corpus file that reads successfully but fails
JSON parsing propagates the raw parse error unchanged (the `JSON.parse`
call sits outside the `try`/`catch` of `initIndex`), so the surfaced error
message does not contain the resolved corpus path. -/
theorem claim_C8_counterexample :
    initIndexLoad ("/app/data/scix/chunked-index.json".toList) (.ok ['['])
      (fun _ => .error ("Unexpected end of JSON input".toList)) =
      .error ("Unexpected end of JSON input".toList) ∧
    ¬ (("/app/data/scix/chunked-index.json".toList) <:+:
      ("Unexpected end of JSON input".toList)) :=
  ⟨rfl, by decide⟩

/-- Amended C8: if the corpus file is missing or unreadable, the load
fails with an error whose message contains the resolved corpus path and
the underlying cause; if the file reads but JSON parsing fails, the load
still fails — no partial index is served — but the parse error propagates
as-is, without the resolved path. -/
theorem claim_C8_amended (docsPath message raw : JStr)
    (parse : JStr → Except JStr (List DocChunk)) :
    (∃ m, initIndexLoad docsPath (.err message) parse = .error m ∧
      docsPath <:+: m ∧ message <:+: m)
    ∧ (∀ e, parse raw = .error e →
      initIndexLoad docsPath (.ok raw) parse = .error e) := by
  constructor
  · refine ⟨_, rfl, ?_, ?_⟩
    · exact ⟨("Failed to load SciX documentation index at ".toList),
        (": ".toList) ++ message, by simp⟩
    · exact ⟨("Failed to load SciX documentation index at ".toList) ++ docsPath ++
        (": ".toList), [], by simp⟩
  · intro e he
    rw [initIndexLoad, he]

/-- Witness for the amended C8 at a concrete input: a parse failure
propagates unchanged. -/
theorem claim_C8_amended_witness :
    ((fun _ : JStr => (Except.error ("bad".toList) : Except JStr (List DocChunk)))
      ("[]".toList) = .error ("bad".toList)) ∧
    initIndexLoad ("/p".toList) (.ok ("[]".toList))
      (fun _ => .error ("bad".toList)) = .error ("bad".toList) :=
  ⟨rfl, (claim_C8_amended ("/p".toList) [] ("[]".toList)
    (fun _ => .error ("bad".toList))).2 ("bad".toList) rfl⟩
